import Mathlib

/- Verification of the abes_nice_procs crate (src/src/lib.rs), a procedural
macro library with two pipelines: the method! compile-and-run pipeline and
the FromBinary/ToBinary derive pipeline (token parsing plus text codegen).
Rust strings are modelled as lists of characters, token streams as lists of
a recursive token-tree type, the file system as an association list from
paths to contents, and the external toolchain (compiler, produced binary,
UTF-8 decoding, token re-parsing) as an environment record of oracles. -/

namespace AbesProcs

/-- Rust String, modelled as a list of characters. -/
abbrev Str := List Char

/-- Group delimiters of proc_macro token trees. -/
inductive Delim
| paren
| brace
| bracket
| nodelim
deriving DecidableEq, Repr

/-- proc_macro TokenTree: identifier, punctuation, literal, or nested group.
Ident and Literal carry their to_string rendering. -/
inductive TokenTree
| ident (s : Str)
| punct (c : Char)
| lit (s : Str)
| group (d : Delim) (ts : List TokenTree)
deriving Repr

def delimOpen : Delim → Str
| Delim.paren => "(".data
| Delim.brace => "\x7b".data
| Delim.bracket => "[".data
| Delim.nodelim => []

def delimClose : Delim → Str
| Delim.paren => ")".data
| Delim.brace => "\x7d".data
| Delim.bracket => "]".data
| Delim.nodelim => []

mutual

/-- TokenTree::to_string of a single token (nested groups are rendered with
their delimiters around the concatenation of their interior tokens). -/
def ttToString : TokenTree → Str
| TokenTree.ident s => s
| TokenTree.punct c => [c]
| TokenTree.lit s => s
| TokenTree.group d ts => delimOpen d ++ ttsToString ts ++ delimClose d

/-- iter().map(|x| x.to_string()).collect::<String>() over a token list:
concatenation of the individual token renderings, with no separators. -/
def ttsToString : List TokenTree → Str
| [] => []
| t :: ts => ttToString t ++ ttsToString ts

end

/-- TokenStream::to_string, which separates the top-level trees by spaces
(the exact spacing rustc uses is irrelevant here: no claim inspects the
written file contents). -/
def tsToString (ts : List TokenTree) : Str :=
  List.intercalate " ".data (ts.map ttToString)

/-- The predicate used in lib.rs to split token slices: a Punct whose
to_string equals a comma. -/
def isCommaTT : TokenTree → Bool
| TokenTree.punct c => c = ','
| _ => false

/-- A Punct whose to_string equals a colon (the bound separator test in
DeriveData::implement). -/
def isColonTT : TokenTree → Bool
| TokenTree.punct c => c = ':'
| _ => false

/-- Rust slice::split on a predicate: separators are dropped, the empty
slice splits into one empty segment, and adjacent separators produce empty
segments. -/
def splitSep (p : TokenTree → Bool) : List TokenTree → List (List TokenTree)
| [] => [[]]
| t :: ts =>
  if p t then [] :: splitSep p ts
  else
    match splitSep p ts with
    | [] => [[t]]
    | s :: rest => (t :: s) :: rest

/-- enum What (lib.rs lines 174-177). -/
inductive What
| Struct
| Enum
deriving DecidableEq, Repr

/-- What::from_ident (lib.rs lines 179-185), matching the to_string of an
identifier against the declaration-kind vocabulary. -/
def whatFromIdent (s : Str) : Option What :=
  if s = "struct".data then some What.Struct
  else if s = "enum".data then some What.Enum
  else none

/-- struct Field (lib.rs lines 381-385). -/
structure Field where
  name : Str
  data_type : Str
deriving DecidableEq, Repr

/-- struct DeriveData (lib.rs lines 195-200); the name Ident is modelled by
its to_string rendering. -/
structure DeriveData where
  what : What
  name : Str
  generic : List TokenTree
  fields : List Field

/-- enum Which (lib.rs lines 386-389). -/
inductive Which
| From
| To
deriving DecidableEq, Repr

/-- The generic-splitting loop of DeriveData::implement (lib.rs lines
211-228 and 246-263): for each comma-separated segment of the generic
tokens, emit the tokens before the first colon, then a comma. The caller
then pops one character off the accumulated string. -/
def boundFreeFold (generic : List TokenTree) (acc : Str) : Str :=
  (splitSep isCommaTT generic).foldl
    (fun a seg => a ++ ttsToString (seg.takeWhile (fun t => !(isColonTT t))) ++ [',']) acc

/-- DeriveData::implement (lib.rs lines 202-275): emits the implementation
text for the requested direction by string concatenation. -/
def implement (d : DeriveData) (w : Which) : Str :=
  match w with
  | Which.From =>
    let out := "impl".data ++ ttsToString d.generic ++ " FromBinary for ".data ++ d.name
    let out := (boundFreeFold d.generic out).dropLast
    let out := out ++ "\x7b fn from_binary(binary: &mut dyn std::io::Read) -> Self \x7b".data
    let out := d.fields.foldl
      (fun a f => a ++ "self.".data ++ f.name ++ "=".data ++ f.data_type
        ++ "::from_binary(binary),".data) out
    out ++ "\x7d\x7d".data
  | Which.To =>
    let out := "impl".data ++ ttsToString d.generic ++ " ToBinary for ".data ++ d.name
    let out := (boundFreeFold d.generic out).dropLast
    let out := out ++ "\x7b fn to_binary(self, write: &mut dyn std::io::Write) \x7b".data
    let out := d.fields.foldl
      (fun a f => a ++ "self.".data ++ f.name ++ ".to_binary(write);".data) out
    out ++ "\x7d\x7d".data

/-- The decode-direction statement emitted for one field (the body of the
field loop at lib.rs lines 231-237), named so that the per-field structure
of the output can be stated. -/
def fromFieldStmt (f : Field) : Str :=
  "self.".data ++ f.name ++ "=".data ++ f.data_type ++ "::from_binary(binary),".data

/-- The encode-direction statement emitted for one field (lib.rs lines
266-270). -/
def toFieldStmt (f : Field) : Str :=
  "self.".data ++ f.name ++ ".to_binary(write);".data

/-- The implementation-header text of the decode direction, up to and
including the opening of the from_binary body (lib.rs lines 205-230). -/
def implHeaderFrom (d : DeriveData) : Str :=
  (boundFreeFold d.generic
    ("impl".data ++ ttsToString d.generic ++ " FromBinary for ".data ++ d.name)).dropLast
  ++ "\x7b fn from_binary(binary: &mut dyn std::io::Read) -> Self \x7b".data

/-- The implementation-header text of the encode direction (lib.rs lines
242-265). -/
def implHeaderTo (d : DeriveData) : Str :=
  (boundFreeFold d.generic
    ("impl".data ++ ttsToString d.generic ++ " ToBinary for ".data ++ d.name)).dropLast
  ++ "\x7b fn to_binary(self, write: &mut dyn std::io::Write) \x7b".data

/-- Modelled from the spec: the specification renders the bound-free
generic list by splitting the generic token sequence on top-level separator
tokens, truncating each segment at its first colon token, and removing the
trailing separator. Stated with List.intercalate, to be compared with the
append-a-comma-per-segment-then-pop loop the code performs. -/
def boundFreeSpec (generic : List TokenTree) : Str :=
  List.intercalate [',']
    ((splitSep isCommaTT generic).map
      (fun seg => ttsToString (seg.takeWhile (fun t => !(isColonTT t)))))

/-- The declaration kind carried by a token, if any: an identifier whose
text is in the struct/enum vocabulary. -/
def kindOf : TokenTree → Option What
| TokenTree.ident s => whatFromIdent s
| _ => none

def isGroupTT : TokenTree → Bool
| TokenTree.group _ _ => true
| _ => false

/-- The kind-scanning loop of From<TokenStream> for DeriveData (lib.rs
lines 281-288): skip tokens until an identifier in the vocabulary is found,
returning it together with the unconsumed remainder. -/
def findWhat : List TokenTree → Option (What × List TokenTree)
| [] => none
| TokenTree.ident s :: rest =>
  match whatFromIdent s with
  | some w => some (w, rest)
  | none => findWhat rest
| TokenTree.punct _ :: rest => findWhat rest
| TokenTree.lit _ :: rest => findWhat rest
| TokenTree.group _ _ :: rest => findWhat rest

/-- The generic-accumulation loop (lib.rs lines 298-308): push tokens into
the generic list until the first group, whose interior token list becomes
the field stream; tokens after that group are discarded. -/
def splitGenerics : List TokenTree → Option (List TokenTree × List TokenTree)
| [] => none
| TokenTree.group _ ts :: _ => some ([], ts)
| t :: rest =>
  match splitGenerics rest with
  | none => none
  | some (g, f) => some (t :: g, f)

/-- One field segment (lib.rs lines 319-324): token 0 to_string is the
name, tokens from index 2 onward concatenate to the type text. Indexing
with [0] panics on an empty segment and the range [2..] panics when the
segment has exactly one token; a two-token segment yields an empty type
text because [2..] of a length-2 slice is the empty slice. -/
def mkField (seg : List TokenTree) : Except Str Field :=
  match seg with
  | [] => Except.error "index out of bounds: the len is 0 but the index is 0".data
  | [_] => Except.error "range start index 2 out of range for slice of length 1".data
  | t :: _ :: rest => Except.ok ⟨ttToString t, ttsToString rest⟩

/-- The field loop (lib.rs lines 311-325): build fields segment by segment,
propagating the first panic. -/
def mkFields : List (List TokenTree) → Except Str (List Field)
| [] => Except.ok []
| seg :: rest =>
  match mkField seg with
  | Except.error e => Except.error e
  | Except.ok f =>
    match mkFields rest with
    | Except.error e => Except.error e
    | Except.ok fs => Except.ok (f :: fs)

/-- The field shape the segment loop produces for a well-formed segment
(used to state what mkFields returns when no segment is short). -/
def specField (seg : List TokenTree) : Field :=
  match seg with
  | t :: _ :: rest => ⟨ttToString t, ttsToString rest⟩
  | _ => ⟨[], []⟩

/-- The header stage of From<TokenStream> for DeriveData (lib.rs lines
279-309): locate the declaration kind, require the next token to be the
name identifier, accumulate generics up to the first group, and surface the
field stream. Panics are modelled as errors carrying the panic message. -/
def scanHeader (ts : List TokenTree) : Except Str (What × Str × List TokenTree × List TokenTree) :=
  match findWhat ts with
  | none => Except.error "Missing what it is(struct/enum)".data
  | some (w, rest) =>
    match rest with
    | [] => Except.error "Missing name".data
    | TokenTree.ident n :: rest2 =>
      match splitGenerics rest2 with
      | none => Except.error "Could not get fields".data
      | some (g, fstream) => Except.ok (w, n, g, fstream)
    | TokenTree.punct _ :: _ => Except.error "FUCK FUCK FUCK FUCK FUCK FUCK".data
    | TokenTree.lit _ :: _ => Except.error "FUCK FUCK FUCK FUCK FUCK FUCK".data
    | TokenTree.group _ _ :: _ => Except.error "FUCK FUCK FUCK FUCK FUCK FUCK".data

/-- From<TokenStream> for DeriveData (lib.rs lines 277-333). -/
def deriveDataFrom (ts : List TokenTree) : Except Str DeriveData :=
  match scanHeader ts with
  | Except.error e => Except.error e
  | Except.ok (w, n, g, fstream) =>
    match mkFields (splitSep isCommaTT fstream) with
    | Except.error e => Except.error e
    | Except.ok fs => Except.ok ⟨w, n, g, fs⟩

/-- Exit status of a child process: success flag plus its Display text. -/
structure ExitStatus where
  success : Bool
  display : Str

/-- The external world of the method macro: the manifest edition value (an
interface per the spec; manifest reading itself is out of scope), the
compiler invoked on a source path and edition, the produced binary invoked
by path yielding a status and captured stdout bytes, UTF-8 decoding of
bytes, and re-parsing of text as a token stream. The last two are rustc
library services, modelled as oracles. -/
structure Env where
  edition : Str
  compile : Str → Str → ExitStatus
  run : Str → ExitStatus × List Nat
  decodeUtf8 : List Nat → Option Str
  parseTS : Str → Option (List TokenTree)

/-- Working directory contents: an association list of path and file
content. -/
abbrev FS := List (Str × Str)

def fsWrite (p content : Str) (fs : FS) : FS := (p, content) :: fs

/-- std::fs::remove_file, best effort: drop every entry at the path. -/
def fsRemove (p : Str) : FS → FS
| [] => []
| e :: fs => if e.1 = p then fsRemove p fs else e :: fsRemove p fs

/-- Whether a file exists at a path. -/
def fsHas (p : Str) : FS → Bool
| [] => false
| e :: fs => if e.1 = p then true else fsHas p fs

/-- Observable events of one method invocation, in the order they happen:
source file written, source DeleteOnDrop guard armed, compiler invoked,
binary DeleteOnDrop guard armed, binary executed. -/
inductive Ev
| writeSrc
| armSrcGuard
| compileEv
| armBinGuard
| runEv
deriving DecidableEq, Repr

/-- The complete event sequence of an invocation that reaches the run
step. -/
def fullTrace : List Ev := [Ev.writeSrc, Ev.armSrcGuard, Ev.compileEv, Ev.armBinGuard, Ev.runEv]

/-- Result of one method invocation: the spliced tokens or the panic
message, the final working directory, and the event trace. -/
structure MethodOut where
  result : Except Str (List TokenTree)
  fs : FS
  trace : List Ev

/-- format!("(path).rs") (lib.rs line 144). -/
def rsPathOf (path : Str) : Str := path ++ ".rs".data

/-- Path::new(".").join(path) (lib.rs line 159). -/
def binPathOf (path : Str) : Str := "./".data ++ path

/-- The body of the method macro after the path and comma have been read
(lib.rs lines 137-173): render the code, write the source file, arm its
guard, compile, arm the binary guard, run, decode stdout, re-parse. Every
early exit is a panic, after which both armed guards delete their files. -/
def methodCore (env : Env) (fs0 : FS) (path : Str) (body : List TokenTree) : MethodOut :=
  let code := tsToString body
  let rsPath := rsPathOf path
  let fs1 := fsWrite rsPath code fs0
  let st := env.compile rsPath env.edition
  if st.success then
    let binPath := binPathOf path
    let fs2 := fsWrite binPath [] fs1
    let ro := env.run binPath
    if ro.1.success then
      match env.decodeUtf8 ro.2 with
      | none =>
        ⟨Except.error "called Result::unwrap() on an Err value: FromUtf8Error".data,
          fsRemove rsPath (fsRemove binPath fs2), fullTrace⟩
      | some s =>
        match env.parseTS s with
        | none =>
          ⟨Except.error "called Result::unwrap() on an Err value: LexError".data,
            fsRemove rsPath (fsRemove binPath fs2), fullTrace⟩
        | some toks =>
          ⟨Except.ok toks, fsRemove rsPath (fsRemove binPath fs2), fullTrace⟩
    else
      ⟨Except.error ("failed to run file: ".data ++ ro.1.display),
        fsRemove rsPath (fsRemove binPath fs2), fullTrace⟩
  else
    ⟨Except.error ("failed to compile: ".data ++ st.display),
      fsRemove rsPath fs1, [Ev.writeSrc, Ev.armSrcGuard, Ev.compileEv]⟩

/-- pub fn method (lib.rs lines 122-173): the first token must be an
identifier (the file name), the next a comma; the rest is the code body. -/
def method (env : Env) (fs0 : FS) (attr : List TokenTree) : MethodOut :=
  match attr with
  | [] => ⟨Except.error "called Option::unwrap() on a None value".data, fs0, []⟩
  | TokenTree.ident path :: rest =>
    match rest with
    | TokenTree.punct c :: body =>
      if c = ',' then methodCore env fs0 path body
      else ⟨Except.error "expected comma after filename".data, fs0, []⟩
    | _ => ⟨Except.error "expected comma after filename".data, fs0, []⟩
  | _ :: _ => ⟨Except.error "could not get path".data, fs0, []⟩

/-- A concrete environment in which every step succeeds: the compiled
program prints the single byte 53, which decodes to the text 5 and parses
to the literal token 5. -/
def env0 : Env where
  edition := "2021".data
  compile := fun _ _ => ⟨true, "exit status: 0".data⟩
  run := fun _ => (⟨true, "exit status: 0".data⟩, [53])
  decodeUtf8 := fun b => if b = [53] then some "5".data else none
  parseTS := fun s => if s = "5".data then some [TokenTree.lit "5".data] else none

/-- A concrete environment whose compile step fails. -/
def envCfail : Env where
  edition := "2021".data
  compile := fun _ _ => ⟨false, "exit status: 1".data⟩
  run := fun _ => (⟨true, "exit status: 0".data⟩, [])
  decodeUtf8 := fun _ => none
  parseTS := fun _ => none

/-! Helper lemmas. -/

theorem fsHas_fsRemove (p q : Str) (fs : FS) :
    fsHas p (fsRemove q fs) = if p = q then false else fsHas p fs := by
  induction fs with
  | nil => simp [fsRemove, fsHas]
  | cons e fs ih =>
    by_cases h2 : p = q
    · subst h2
      by_cases h1 : e.1 = p
      · simp [fsRemove, fsHas, h1, ih]
      · simp [fsRemove, fsHas, h1, ih]
    · have h2q : ¬(q = p) := fun hh => h2 hh.symm
      by_cases h1 : e.1 = q
      · have h3 : ¬(e.1 = p) := by
          rw [h1]
          exact h2q
        simp [fsRemove, fsHas, h1, h2, h2q, h3, ih]
      · by_cases h3 : e.1 = p
        · simp [fsRemove, fsHas, h1, h2, h2q, h3, ih]
        · simp [fsRemove, fsHas, h1, h2, h2q, h3, ih]

theorem splitSep_ne_nil (p : TokenTree → Bool) (ts : List TokenTree) : splitSep p ts ≠ [] := by
  induction ts with
  | nil => simp [splitSep]
  | cons t ts ih =>
    by_cases hp : p t
    · simp [splitSep, hp]
    · cases h : splitSep p ts with
      | nil => simp [splitSep, hp, h]
      | cons s rest => simp [splitSep, hp, h]

theorem intercalate_comma_cons₂ (sep x y : Str) (zs : List Str) :
    List.intercalate sep (x :: y :: zs) = x ++ sep ++ List.intercalate sep (y :: zs) := by
  simp [List.intercalate, List.append_assoc]

theorem foldl_comma_dropLast (f : List TokenTree → Str) (segs : List (List TokenTree)) :
    segs ≠ [] → ∀ acc : Str,
      (segs.foldl (fun a s => a ++ f s ++ [',']) acc).dropLast
        = acc ++ List.intercalate [','] (segs.map f) := by
  induction segs with
  | nil => exact fun h => absurd rfl h
  | cons s rest ih =>
    intro _ acc
    cases rest with
    | nil => simp [List.intercalate]
    | cons s2 rest2 =>
      rw [List.foldl_cons, ih (by simp) (acc ++ f s ++ [','])]
      simp only [List.map_cons]
      rw [intercalate_comma_cons₂]
      simp [List.append_assoc]

theorem boundFreeFold_dropLast (g : List TokenTree) (acc : Str) :
    (boundFreeFold g acc).dropLast = acc ++ boundFreeSpec g := by
  unfold boundFreeFold boundFreeSpec
  rw [foldl_comma_dropLast _ _ (splitSep_ne_nil _ _) acc]

theorem fields_fold_from (fs : List Field) (acc : Str) :
    fs.foldl
      (fun a f => a ++ "self.".data ++ f.name ++ "=".data ++ f.data_type
        ++ "::from_binary(binary),".data) acc
      = acc ++ (fs.map fromFieldStmt).flatten := by
  induction fs generalizing acc with
  | nil => simp
  | cons f fs ih =>
    rw [List.foldl_cons, ih]
    simp [fromFieldStmt, List.append_assoc]

theorem fields_fold_to (fs : List Field) (acc : Str) :
    fs.foldl (fun a f => a ++ "self.".data ++ f.name ++ ".to_binary(write);".data) acc
      = acc ++ (fs.map toFieldStmt).flatten := by
  induction fs generalizing acc with
  | nil => simp
  | cons f fs ih =>
    rw [List.foldl_cons, ih]
    simp [toFieldStmt, List.append_assoc]

theorem implement_from_eq (d : DeriveData) :
    implement d Which.From
      = "impl".data ++ ttsToString d.generic ++ " FromBinary for ".data ++ d.name
        ++ boundFreeSpec d.generic
        ++ "\x7b fn from_binary(binary: &mut dyn std::io::Read) -> Self \x7b".data
        ++ (d.fields.map fromFieldStmt).flatten ++ "\x7d\x7d".data := by
  simp only [implement]
  rw [fields_fold_from, boundFreeFold_dropLast]

theorem implement_to_eq (d : DeriveData) :
    implement d Which.To
      = "impl".data ++ ttsToString d.generic ++ " ToBinary for ".data ++ d.name
        ++ boundFreeSpec d.generic
        ++ "\x7b fn to_binary(self, write: &mut dyn std::io::Write) \x7b".data
        ++ (d.fields.map toFieldStmt).flatten ++ "\x7d\x7d".data := by
  simp only [implement]
  rw [fields_fold_to, boundFreeFold_dropLast]

theorem mkField_of_long (seg : List TokenTree) (h : 2 ≤ seg.length) :
    mkField seg = Except.ok (specField seg) := by
  cases seg with
  | nil => simp at h
  | cons t rest =>
    cases rest with
    | nil => simp at h
    | cons u rest2 => rfl

theorem mkField_of_short (seg : List TokenTree) (h : seg.length < 2) :
    ∃ e, mkField seg = Except.error e := by
  cases seg with
  | nil => exact ⟨_, rfl⟩
  | cons t rest =>
    cases rest with
    | nil => exact ⟨_, rfl⟩
    | cons u rest2 =>
      simp at h
      exact absurd h (by omega)

theorem mkFields_of_long (segs : List (List TokenTree)) (h : ∀ seg ∈ segs, 2 ≤ seg.length) :
    mkFields segs = Except.ok (segs.map specField) := by
  induction segs with
  | nil => rfl
  | cons s rest ih =>
    have hs := mkField_of_long s (h s (List.mem_cons_self s rest))
    have hr := ih (fun seg hseg => h seg (List.mem_cons_of_mem s hseg))
    simp [mkFields, hs, hr]

theorem mkFields_of_short (segs : List (List TokenTree))
    (h : ∃ seg ∈ segs, seg.length < 2) :
    ∃ e, mkFields segs = Except.error e := by
  induction segs with
  | nil => simp at h
  | cons s rest ih =>
    rcases h with ⟨seg, hmem, hlen⟩
    rcases List.mem_cons.mp hmem with heq | htail
    · subst heq
      obtain ⟨e, he⟩ := mkField_of_short seg hlen
      exact ⟨e, by simp [mkFields, he]⟩
    · cases hmk : mkField s with
      | error e => exact ⟨e, by simp [mkFields, hmk]⟩
      | ok f =>
        obtain ⟨e, he⟩ := ih ⟨seg, htail, hlen⟩
        exact ⟨e, by simp [mkFields, hmk, he]⟩

theorem findWhat_eq_none (ts : List TokenTree) :
    findWhat ts = none ↔ ∀ t ∈ ts, kindOf t = none := by
  induction ts with
  | nil => simp [findWhat]
  | cons t rest ih =>
    cases t with
    | ident s =>
      cases hw : whatFromIdent s with
      | some w => simp [findWhat, hw, kindOf]
      | none => simp [findWhat, hw, kindOf, ih]
    | punct c => simp [findWhat, kindOf, ih]
    | lit s => simp [findWhat, kindOf, ih]
    | group dl g => simp [findWhat, kindOf, ih]

theorem findWhat_append (pre : List TokenTree) (k : Str) (w : What) (rest : List TokenTree)
    (hpre : ∀ t ∈ pre, kindOf t = none) (hk : whatFromIdent k = some w) :
    findWhat (pre ++ TokenTree.ident k :: rest) = some (w, rest) := by
  induction pre with
  | nil => simp [findWhat, hk]
  | cons t pre ih =>
    have ht := hpre t (List.mem_cons_self t pre)
    have hpre2 : ∀ u ∈ pre, kindOf u = none := fun u hu => hpre u (List.mem_cons_of_mem t hu)
    cases t with
    | ident s =>
      have hs : whatFromIdent s = none := by simpa [kindOf] using ht
      simp [findWhat, hs, ih hpre2]
    | punct c => simp [findWhat, ih hpre2]
    | lit s => simp [findWhat, ih hpre2]
    | group dl g => simp [findWhat, ih hpre2]

theorem findWhat_shape (ts : List TokenTree) (w : What) (rest : List TokenTree)
    (h : findWhat ts = some (w, rest)) :
    ∃ pre k, ts = pre ++ TokenTree.ident k :: rest ∧ (∀ t ∈ pre, kindOf t = none)
      ∧ whatFromIdent k = some w := by
  induction ts with
  | nil => simp [findWhat] at h
  | cons t ts ih =>
    cases t with
    | ident s =>
      cases hw : whatFromIdent s with
      | some w2 =>
        simp only [findWhat, hw] at h
        simp only [Option.some.injEq, Prod.mk.injEq] at h
        obtain ⟨rfl, rfl⟩ := h
        exact ⟨[], s, rfl, by simp, hw⟩
      | none =>
        simp only [findWhat, hw] at h
        obtain ⟨pre, k, hts, hpre, hk⟩ := ih h
        refine ⟨TokenTree.ident s :: pre, k, by simp [hts], ?_, hk⟩
        intro u hu
        rcases List.mem_cons.mp hu with rfl | hu2
        · simpa [kindOf] using hw
        · exact hpre u hu2
    | punct c =>
      simp only [findWhat] at h
      obtain ⟨pre, k, hts, hpre, hk⟩ := ih h
      refine ⟨TokenTree.punct c :: pre, k, by simp [hts], ?_, hk⟩
      intro u hu
      rcases List.mem_cons.mp hu with rfl | hu2
      · rfl
      · exact hpre u hu2
    | lit s =>
      simp only [findWhat] at h
      obtain ⟨pre, k, hts, hpre, hk⟩ := ih h
      refine ⟨TokenTree.lit s :: pre, k, by simp [hts], ?_, hk⟩
      intro u hu
      rcases List.mem_cons.mp hu with rfl | hu2
      · rfl
      · exact hpre u hu2
    | group dl g =>
      simp only [findWhat] at h
      obtain ⟨pre, k, hts, hpre, hk⟩ := ih h
      refine ⟨TokenTree.group dl g :: pre, k, by simp [hts], ?_, hk⟩
      intro u hu
      rcases List.mem_cons.mp hu with rfl | hu2
      · rfl
      · exact hpre u hu2

theorem splitGenerics_eq_none (ts : List TokenTree) :
    splitGenerics ts = none ↔ ∀ t ∈ ts, isGroupTT t = false := by
  induction ts with
  | nil => simp [splitGenerics]
  | cons t rest ih =>
    cases t with
    | group dl g => simp [splitGenerics, isGroupTT]
    | ident s =>
      constructor
      · intro h0 u hu
        rcases List.mem_cons.mp hu with rfl | hu2
        · rfl
        · refine ih.mp ?_ u hu2
          cases hr : splitGenerics rest with
          | none => rfl
          | some gf =>
            obtain ⟨g2, f2⟩ := gf
            simp [splitGenerics, hr] at h0
      · intro hall
        have hr : splitGenerics rest = none :=
          ih.mpr (fun u hu => hall u (List.mem_cons_of_mem _ hu))
        simp [splitGenerics, hr]
    | punct c =>
      constructor
      · intro h0 u hu
        rcases List.mem_cons.mp hu with rfl | hu2
        · rfl
        · refine ih.mp ?_ u hu2
          cases hr : splitGenerics rest with
          | none => rfl
          | some gf =>
            obtain ⟨g2, f2⟩ := gf
            simp [splitGenerics, hr] at h0
      · intro hall
        have hr : splitGenerics rest = none :=
          ih.mpr (fun u hu => hall u (List.mem_cons_of_mem _ hu))
        simp [splitGenerics, hr]
    | lit s =>
      constructor
      · intro h0 u hu
        rcases List.mem_cons.mp hu with rfl | hu2
        · rfl
        · refine ih.mp ?_ u hu2
          cases hr : splitGenerics rest with
          | none => rfl
          | some gf =>
            obtain ⟨g2, f2⟩ := gf
            simp [splitGenerics, hr] at h0
      · intro hall
        have hr : splitGenerics rest = none :=
          ih.mpr (fun u hu => hall u (List.mem_cons_of_mem _ hu))
        simp [splitGenerics, hr]

theorem deriveDataFrom_struct (n : Str) (dl : Delim) (fstream : List TokenTree) :
    deriveDataFrom [TokenTree.ident "struct".data, TokenTree.ident n, TokenTree.group dl fstream]
      = match mkFields (splitSep isCommaTT fstream) with
        | Except.error e => Except.error e
        | Except.ok fs => Except.ok ⟨What.Struct, n, [], fs⟩ := rfl

/-! Claim theorems. -/

/-- C3: for every declaration with N fields in declared order, implement in either
direction emits exactly N field statements, as the in-order concatenation of one
statement per field, each referencing the field name (and, in the decode direction,
its type text) verbatim; in particular for fields a then b the decode body invokes
the decode of a before that of b, and the encode body writes a before b. -/
theorem implement_emits_fields_in_declared_order (d : DeriveData) :
    implement d Which.From
      = implHeaderFrom d ++ (d.fields.map fromFieldStmt).flatten ++ "\x7d\x7d".data
    ∧ implement d Which.To
      = implHeaderTo d ++ (d.fields.map toFieldStmt).flatten ++ "\x7d\x7d".data
    ∧ (([⟨"a".data, "u8".data⟩, ⟨"b".data, "String".data⟩] : List Field).map fromFieldStmt).flatten
        = "self.a=u8::from_binary(binary),self.b=String::from_binary(binary),".data
    ∧ (([⟨"a".data, "u8".data⟩, ⟨"b".data, "String".data⟩] : List Field).map toFieldStmt).flatten
        = "self.a.to_binary(write);self.b.to_binary(write);".data := by
  refine ⟨?_, ?_, by decide, by decide⟩
  · rw [implement_from_eq]
    simp only [implHeaderFrom]
    rw [boundFreeFold_dropLast]
  · rw [implement_to_eq]
    simp only [implHeaderTo]
    rw [boundFreeFold_dropLast]

/-- C4: the bound-free generic rendering in both implementation headers equals the
generic token sequence split on top-level comma tokens, each segment truncated at
its first colon token, joined by commas with the trailing separator removed
(boundFreeSpec, stated with List.intercalate); for generics T: Clone, U: Default
this rendering is T,U. -/
theorem implement_bound_free_generics_spec (d : DeriveData) :
    implement d Which.From
      = "impl".data ++ ttsToString d.generic ++ " FromBinary for ".data ++ d.name
        ++ boundFreeSpec d.generic
        ++ "\x7b fn from_binary(binary: &mut dyn std::io::Read) -> Self \x7b".data
        ++ (d.fields.map fromFieldStmt).flatten ++ "\x7d\x7d".data
    ∧ implement d Which.To
      = "impl".data ++ ttsToString d.generic ++ " ToBinary for ".data ++ d.name
        ++ boundFreeSpec d.generic
        ++ "\x7b fn to_binary(self, write: &mut dyn std::io::Write) \x7b".data
        ++ (d.fields.map toFieldStmt).flatten ++ "\x7d\x7d".data
    ∧ boundFreeSpec [TokenTree.ident "T".data, TokenTree.punct ':',
        TokenTree.ident "Clone".data, TokenTree.punct ',', TokenTree.ident "U".data,
        TokenTree.punct ':', TokenTree.ident "Default".data] = "T,U".data :=
  ⟨implement_from_eq d, implement_to_eq d, by decide⟩

/-- C9: implement never inspects the declaration kind: two DeriveData values that
agree on name, generics and fields but differ in What produce identical output
text for either direction, so an enumeration receives the same struct-style
per-field self code as the corresponding structure. -/
theorem implement_ignores_declaration_kind (d d2 : DeriveData) (w : Which)
    (hn : d.name = d2.name) (hg : d.generic = d2.generic) (hf : d.fields = d2.fields) :
    implement d w = implement d2 w := by
  cases d
  cases d2
  cases hn
  cases hg
  cases hf
  rfl

/-- C9 witness: two concrete declarations differing only in kind generate the
same text. -/
theorem implement_ignores_declaration_kind_witness :
    implement ⟨What.Struct, "A".data, [], [⟨"x".data, "u8".data⟩]⟩ Which.From
      = implement ⟨What.Enum, "A".data, [], [⟨"x".data, "u8".data⟩]⟩ Which.From :=
  implement_ignores_declaration_kind _ _ _ rfl rfl rfl

/-- C10: with an empty generic list the headers are still well formed: the single
pop removes exactly the comma appended for the lone empty split segment and no
character of the type name, yielding impl FromBinary for Name and impl ToBinary
for Name. -/
theorem implement_empty_generics_header (w : What) (n : Str) (fs : List Field) :
    implement ⟨w, n, [], fs⟩ Which.From
      = "impl FromBinary for ".data ++ n
        ++ "\x7b fn from_binary(binary: &mut dyn std::io::Read) -> Self \x7b".data
        ++ (fs.map fromFieldStmt).flatten ++ "\x7d\x7d".data
    ∧ implement ⟨w, n, [], fs⟩ Which.To
      = "impl ToBinary for ".data ++ n
        ++ "\x7b fn to_binary(self, write: &mut dyn std::io::Write) \x7b".data
        ++ (fs.map toFieldStmt).flatten ++ "\x7d\x7d".data := by
  constructor
  · calc implement ⟨w, n, [], fs⟩ Which.From
        = "impl".data ++ ttsToString ([] : List TokenTree) ++ " FromBinary for ".data ++ n
          ++ boundFreeSpec ([] : List TokenTree)
          ++ "\x7b fn from_binary(binary: &mut dyn std::io::Read) -> Self \x7b".data
          ++ (fs.map fromFieldStmt).flatten ++ "\x7d\x7d".data := implement_from_eq _
      _ = _ := by
          have h2 : boundFreeSpec ([] : List TokenTree) = [] := rfl
          have h3 : ttsToString ([] : List TokenTree) = [] := rfl
          rw [h2, h3, List.append_nil, List.append_nil,
            (by decide : "impl".data ++ " FromBinary for ".data = "impl FromBinary for ".data)]
  · calc implement ⟨w, n, [], fs⟩ Which.To
        = "impl".data ++ ttsToString ([] : List TokenTree) ++ " ToBinary for ".data ++ n
          ++ boundFreeSpec ([] : List TokenTree)
          ++ "\x7b fn to_binary(self, write: &mut dyn std::io::Write) \x7b".data
          ++ (fs.map toFieldStmt).flatten ++ "\x7d\x7d".data := implement_to_eq _
      _ = _ := by
          have h2 : boundFreeSpec ([] : List TokenTree) = [] := rfl
          have h3 : ttsToString ([] : List TokenTree) = [] := rfl
          rw [h2, h3, List.append_nil, List.append_nil,
            (by decide : "impl".data ++ " ToBinary for ".data = "impl ToBinary for ".data)]

/-- C5 counterexample: a field segment of exactly two tokens, a name followed by a
colon with no type tokens, does not abort parsing: it produces a Field whose type
text is empty, because the index range from 2 of a length-2 slice is the empty
slice. -/
theorem parse_two_token_segment_returns_empty_type :
    deriveDataFrom [TokenTree.ident "struct".data, TokenTree.ident "Foo".data,
        TokenTree.group Delim.brace [TokenTree.ident "x".data, TokenTree.punct ':']]
      = Except.ok ⟨What.Struct, "Foo".data, [], [⟨"x".data, []⟩]⟩ := rfl

/-- C5 (amended): a field segment with fewer than 2 tokens aborts parsing fatally
(the slice indexing panics); a 2-token segment such as a name and a colon instead
yields a Field with empty type text, as the counterexample shows. -/
theorem parse_short_field_segment_aborts (n : Str) (dl : Delim) (fstream : List TokenTree)
    (h : ∃ seg ∈ splitSep isCommaTT fstream, seg.length < 2) :
    ∃ e, deriveDataFrom [TokenTree.ident "struct".data, TokenTree.ident n,
        TokenTree.group dl fstream] = Except.error e := by
  obtain ⟨e, he⟩ := mkFields_of_short _ h
  exact ⟨e, by rw [deriveDataFrom_struct, he]⟩

/-- C5 witness: a one-token field segment aborts parsing. -/
theorem parse_short_field_segment_aborts_witness :
    ∃ e, deriveDataFrom [TokenTree.ident "struct".data, TokenTree.ident "Foo".data,
        TokenTree.group Delim.brace [TokenTree.ident "y".data]] = Except.error e :=
  parse_short_field_segment_aborts "Foo".data Delim.brace [TokenTree.ident "y".data] (by decide)

/-- C6 counterexample: token 1 of a field segment is not required to be a colon:
a segment whose second token is a semicolon parses successfully to the same Field
a colon would give, with no validation of the separator. -/
theorem parse_accepts_non_colon_separator :
    deriveDataFrom [TokenTree.ident "struct".data, TokenTree.ident "Foo".data,
        TokenTree.group Delim.brace [TokenTree.ident "x".data, TokenTree.punct ';',
          TokenTree.ident "u8".data]]
      = Except.ok ⟨What.Struct, "Foo".data, [], [⟨"x".data, "u8".data⟩]⟩ := rfl

/-- C6 (amended): parse splits the body group on top-level comma tokens; in each
segment token 0 renders the field name, token 1 is skipped without validation,
and the renderings of tokens from index 2 onward concatenate to the type text;
the Field list preserves segment order exactly. -/
theorem parse_fields_split_shape (n : Str) (dl : Delim) (fstream : List TokenTree)
    (h : ∀ seg ∈ splitSep isCommaTT fstream, 2 ≤ seg.length) :
    deriveDataFrom [TokenTree.ident "struct".data, TokenTree.ident n, TokenTree.group dl fstream]
      = Except.ok ⟨What.Struct, n, [], (splitSep isCommaTT fstream).map specField⟩ := by
  rw [deriveDataFrom_struct, mkFields_of_long _ h]

/-- C6 witness: a two-field body parses to the two fields in declared order. -/
theorem parse_fields_split_shape_witness :
    deriveDataFrom [TokenTree.ident "struct".data, TokenTree.ident "Bar".data,
        TokenTree.group Delim.brace [TokenTree.ident "x".data, TokenTree.punct ':',
          TokenTree.ident "u8".data, TokenTree.punct ',', TokenTree.ident "y".data,
          TokenTree.punct ':', TokenTree.ident "String".data]]
      = Except.ok ⟨What.Struct, "Bar".data, [],
          [⟨"x".data, "u8".data⟩, ⟨"y".data, "String".data⟩]⟩ :=
  parse_fields_split_shape "Bar".data Delim.brace
    [TokenTree.ident "x".data, TokenTree.punct ':', TokenTree.ident "u8".data,
      TokenTree.punct ',', TokenTree.ident "y".data, TokenTree.punct ':',
      TokenTree.ident "String".data] (by decide)

/-- C7: the header stage of parsing fails exactly when no identifier in the input
matches the struct/enum vocabulary, or when the token after the first kind
identifier is missing or not an identifier, or when the tokens after the name
contain no nested group; and every token before the kind identifier, and the kind
identifier itself, are discarded once the kind is resolved (the scan continues on
exactly the remaining tokens). -/
theorem scanHeader_error_characterization (ts : List TokenTree) :
    ((∃ e, scanHeader ts = Except.error e) ↔
      ((∀ t ∈ ts, kindOf t = none)
        ∨ (∃ pre k rest, ts = pre ++ TokenTree.ident k :: rest
            ∧ (∀ t ∈ pre, kindOf t = none) ∧ (whatFromIdent k).isSome
            ∧ ∀ n rest2, rest ≠ TokenTree.ident n :: rest2)
        ∨ (∃ pre k n rest2, ts = pre ++ TokenTree.ident k :: TokenTree.ident n :: rest2
            ∧ (∀ t ∈ pre, kindOf t = none) ∧ (whatFromIdent k).isSome
            ∧ ∀ t ∈ rest2, isGroupTT t = false)))
    ∧ (∀ pre k w rest, (∀ t ∈ pre, kindOf t = none) → whatFromIdent k = some w →
        findWhat (pre ++ TokenTree.ident k :: rest) = some (w, rest)) := by
  constructor
  · constructor
    · rintro ⟨e, he⟩
      cases hf : findWhat ts with
      | none => exact Or.inl ((findWhat_eq_none ts).mp hf)
      | some p =>
        obtain ⟨w, rest⟩ := p
        obtain ⟨pre, k, hts, hpre, hk⟩ := findWhat_shape ts w rest hf
        cases rest with
        | nil =>
          exact Or.inr (Or.inl ⟨pre, k, [], hts, hpre, by simp [hk], by simp⟩)
        | cons t rest2 =>
          cases t with
          | ident n2 =>
            cases hg : splitGenerics rest2 with
            | none =>
              exact Or.inr (Or.inr ⟨pre, k, n2, rest2, hts, hpre, by simp [hk],
                (splitGenerics_eq_none rest2).mp hg⟩)
            | some gf =>
              obtain ⟨g2, f2⟩ := gf
              simp [scanHeader, hf, hg] at he
          | punct c =>
            refine Or.inr (Or.inl ⟨pre, k, TokenTree.punct c :: rest2, hts, hpre,
              by simp [hk], ?_⟩)
            intro n2 r2
            simp
          | lit s2 =>
            refine Or.inr (Or.inl ⟨pre, k, TokenTree.lit s2 :: rest2, hts, hpre,
              by simp [hk], ?_⟩)
            intro n2 r2
            simp
          | group dl g2 =>
            refine Or.inr (Or.inl ⟨pre, k, TokenTree.group dl g2 :: rest2, hts, hpre,
              by simp [hk], ?_⟩)
            intro n2 r2
            simp
    · rintro (h1 | h2 | h3)
      · have hf := (findWhat_eq_none ts).mpr h1
        exact ⟨"Missing what it is(struct/enum)".data, by simp [scanHeader, hf]⟩
      · obtain ⟨pre, k, rest, hts, hpre, hk, hni⟩ := h2
        obtain ⟨w, hw⟩ := Option.isSome_iff_exists.mp hk
        have hf := findWhat_append pre k w rest hpre hw
        subst hts
        cases rest with
        | nil => exact ⟨"Missing name".data, by simp [scanHeader, hf]⟩
        | cons t r2 =>
          cases t with
          | ident n2 => exact absurd rfl (hni n2 r2)
          | punct c =>
            exact ⟨"FUCK FUCK FUCK FUCK FUCK FUCK".data, by simp [scanHeader, hf]⟩
          | lit s2 =>
            exact ⟨"FUCK FUCK FUCK FUCK FUCK FUCK".data, by simp [scanHeader, hf]⟩
          | group dl g2 =>
            exact ⟨"FUCK FUCK FUCK FUCK FUCK FUCK".data, by simp [scanHeader, hf]⟩
      · obtain ⟨pre, k, n2, rest2, hts, hpre, hk, hng⟩ := h3
        obtain ⟨w, hw⟩ := Option.isSome_iff_exists.mp hk
        have hf := findWhat_append pre k w (TokenTree.ident n2 :: rest2) hpre hw
        have hg := (splitGenerics_eq_none rest2).mpr hng
        subst hts
        exact ⟨"Could not get fields".data, by simp [scanHeader, hf, hg]⟩
  · exact fun pre k w rest hpre hk => findWhat_append pre k w rest hpre hk

/-- C7 witness: a leading non-kind token and the kind identifier are discarded,
leaving the scan on the remaining tokens. -/
theorem scanHeader_error_characterization_witness :
    findWhat ([TokenTree.punct '#'] ++ TokenTree.ident "struct".data
        :: [TokenTree.ident "A".data]) = some (What.Struct, [TokenTree.ident "A".data]) :=
  (scanHeader_error_characterization []).2 [TokenTree.punct '#'] "struct".data What.Struct
    [TokenTree.ident "A".data] (by decide) rfl

/-- C1: for every valid invocation, an identifier name followed by a comma and a
body, where the compiled program runs successfully, its captured stdout decodes
to text T, and T parses as a token sequence, method returns exactly the parse of
T, and afterwards neither the source file name.rs nor the binary path ./name
exists on disk. -/
theorem method_success_returns_parse_and_cleans (env : Env) (fs0 : FS) (path T : Str)
    (body toks : List TokenTree)
    (hc : (env.compile (rsPathOf path) env.edition).success = true)
    (hr : (env.run (binPathOf path)).1.success = true)
    (hd : env.decodeUtf8 (env.run (binPathOf path)).2 = some T)
    (hp : env.parseTS T = some toks) :
    (method env fs0 (TokenTree.ident path :: TokenTree.punct ',' :: body)).result
        = Except.ok toks
    ∧ fsHas (rsPathOf path)
        (method env fs0 (TokenTree.ident path :: TokenTree.punct ',' :: body)).fs = false
    ∧ fsHas (binPathOf path)
        (method env fs0 (TokenTree.ident path :: TokenTree.punct ',' :: body)).fs = false := by
  have hm : method env fs0 (TokenTree.ident path :: TokenTree.punct ',' :: body)
      = methodCore env fs0 path body := by simp [method]
  rw [hm]
  refine ⟨?_, ?_, ?_⟩ <;>
    simp [methodCore, hc, hr, hd, hp, fsHas_fsRemove]

/-- C1 witness: a concrete successful run in env0 returns the parsed literal and
leaves neither file on disk. -/
theorem method_success_returns_parse_and_cleans_witness :
    (method env0 [] (TokenTree.ident "f".data :: TokenTree.punct ',' :: [])).result
        = Except.ok [TokenTree.lit "5".data]
    ∧ fsHas (rsPathOf "f".data)
        (method env0 [] (TokenTree.ident "f".data :: TokenTree.punct ',' :: [])).fs = false
    ∧ fsHas (binPathOf "f".data)
        (method env0 [] (TokenTree.ident "f".data :: TokenTree.punct ',' :: [])).fs = false :=
  method_success_returns_parse_and_cleans env0 [] "f".data "5".data []
    [TokenTree.lit "5".data] rfl rfl rfl rfl

/-- C2: in every valid invocation the event trace is write source, arm source
guard, compile and, only when compile succeeds, arm binary guard then run: the
source guard is armed immediately after the write and before the compiler runs,
the binary guard is armed before the binary is executed, and compile strictly
precedes run; on every exit path the source file is gone afterwards, and the
binary is gone whenever its guard was armed. -/
theorem method_guard_order_and_cleanup (env : Env) (fs0 : FS) (path : Str)
    (body : List TokenTree) :
    ((method env fs0 (TokenTree.ident path :: TokenTree.punct ',' :: body)).trace
        = [Ev.writeSrc, Ev.armSrcGuard, Ev.compileEv]
      ∨ (method env fs0 (TokenTree.ident path :: TokenTree.punct ',' :: body)).trace
        = fullTrace)
    ∧ fsHas (rsPathOf path)
        (method env fs0 (TokenTree.ident path :: TokenTree.punct ',' :: body)).fs = false
    ∧ (Ev.armBinGuard ∈ (method env fs0 (TokenTree.ident path :: TokenTree.punct ',' :: body)).trace →
        fsHas (binPathOf path)
          (method env fs0 (TokenTree.ident path :: TokenTree.punct ',' :: body)).fs = false) := by
  have hm : method env fs0 (TokenTree.ident path :: TokenTree.punct ',' :: body)
      = methodCore env fs0 path body := by simp [method]
  rw [hm]
  cases hc : (env.compile (rsPathOf path) env.edition).success with
  | false =>
    refine ⟨Or.inl ?_, ?_, ?_⟩ <;> simp [methodCore, hc, fsHas_fsRemove, fullTrace]
  | true =>
    cases hru : (env.run (binPathOf path)).1.success with
    | false =>
      refine ⟨Or.inr ?_, ?_, ?_⟩ <;> simp [methodCore, hc, hru, fsHas_fsRemove, fullTrace]
    | true =>
      cases hdec : env.decodeUtf8 (env.run (binPathOf path)).2 with
      | none =>
        refine ⟨Or.inr ?_, ?_, ?_⟩ <;>
          simp [methodCore, hc, hru, hdec, fsHas_fsRemove, fullTrace]
      | some s =>
        cases hps : env.parseTS s with
        | none =>
          refine ⟨Or.inr ?_, ?_, ?_⟩ <;>
            simp [methodCore, hc, hru, hdec, hps, fsHas_fsRemove, fullTrace]
        | some toks =>
          refine ⟨Or.inr ?_, ?_, ?_⟩ <;>
            simp [methodCore, hc, hru, hdec, hps, fsHas_fsRemove, fullTrace]

/-- C2 witness: in env0 the binary guard is armed and both files are gone at the
end. -/
theorem method_guard_order_and_cleanup_witness :
    fsHas (rsPathOf "f".data)
        (method env0 [] (TokenTree.ident "f".data :: TokenTree.punct ',' :: [])).fs = false
    ∧ fsHas (binPathOf "f".data)
        (method env0 [] (TokenTree.ident "f".data :: TokenTree.punct ',' :: [])).fs = false :=
  ⟨(method_guard_order_and_cleanup env0 [] "f".data []).2.1,
   (method_guard_order_and_cleanup env0 [] "f".data []).2.2 (by decide)⟩

/-- C8: for a valid invocation shape, method fails exactly when the compile status
is non-success, or the run status is non-success, or the captured stdout bytes do
not decode, or the decoded text does not re-parse; the compile and run failure
messages carry the raw status display, and no failure is caught or downgraded. -/
theorem method_failure_exactness (env : Env) (fs0 : FS) (path : Str) (body : List TokenTree) :
    ((∃ e, (method env fs0 (TokenTree.ident path :: TokenTree.punct ',' :: body)).result
        = Except.error e)
      ↔ ((env.compile (rsPathOf path) env.edition).success = false
          ∨ (env.run (binPathOf path)).1.success = false
          ∨ env.decodeUtf8 (env.run (binPathOf path)).2 = none
          ∨ ∃ s, env.decodeUtf8 (env.run (binPathOf path)).2 = some s
              ∧ env.parseTS s = none))
    ∧ ((env.compile (rsPathOf path) env.edition).success = false →
        (method env fs0 (TokenTree.ident path :: TokenTree.punct ',' :: body)).result
          = Except.error ("failed to compile: ".data
              ++ (env.compile (rsPathOf path) env.edition).display))
    ∧ ((env.compile (rsPathOf path) env.edition).success = true →
        (env.run (binPathOf path)).1.success = false →
        (method env fs0 (TokenTree.ident path :: TokenTree.punct ',' :: body)).result
          = Except.error ("failed to run file: ".data
              ++ (env.run (binPathOf path)).1.display)) := by
  have hm : method env fs0 (TokenTree.ident path :: TokenTree.punct ',' :: body)
      = methodCore env fs0 path body := by simp [method]
  rw [hm]
  refine ⟨?_, ?_, ?_⟩
  · cases hc : (env.compile (rsPathOf path) env.edition).success with
    | false => simp [methodCore, hc]
    | true =>
      cases hru : (env.run (binPathOf path)).1.success with
      | false => simp [methodCore, hc, hru]
      | true =>
        cases hdec : env.decodeUtf8 (env.run (binPathOf path)).2 with
        | none => simp [methodCore, hc, hru, hdec]
        | some s =>
          cases hps : env.parseTS s with
          | none => simp [methodCore, hc, hru, hdec, hps]
          | some toks => simp [methodCore, hc, hru, hdec, hps]
  · intro hc
    simp [methodCore, hc]
  · intro hc hru
    simp [methodCore, hc, hru]

/-- C8 witness: in envCfail the failure is the compile failure and the message
carries the raw status text. -/
theorem method_failure_exactness_witness :
    (method envCfail [] (TokenTree.ident "g".data :: TokenTree.punct ',' :: [])).result
      = Except.error ("failed to compile: ".data ++ "exit status: 1".data) :=
  (method_failure_exactness envCfail [] "g".data []).2.1 rfl

end AbesProcs
